import Mathlib

/-!
Verification of the event-sink repository (tektoncd/triggers fork) against its
natural-language specification.  The Go sources under scrutiny are shallowly
embedded as Lean definitions: pure functions become Lean functions, the
aggregation loop of the dispatcher becomes a fold over the list of status
codes in arrival order, machine integers that never overflow are `Nat`/`Int`,
and fallible code returns `Option`/`Except`.
-/

namespace Triggers

/-! ## HTTP status codes used by the sink (net/http constants) -/

def StatusCreated : Nat := 201
def StatusAccepted : Nat := 202
def StatusUnauthorized : Nat := 401
def StatusForbidden : Nat := 403

/-! ## Dispatcher aggregation (pkg/sink/sink.go, HandleEvent lines 113-126)

The Go loop is

    code := http.StatusAccepted
    for i := 0; i < len(el.Spec.Triggers); i++ {
      thiscode := <-result
      if thiscode == http.StatusUnauthorized || thiscode == http.StatusForbidden {
        code = thiscode
        break
      }
      if thiscode < code {
        code = thiscode
      }
    }

`aggregateLoop acc codes` runs that loop with accumulator `acc` over the
status codes in the order they are received from the channel; `aggregateCodes`
starts it at 202 as the source does. -/

def aggregateLoop (acc : Nat) : List Nat → Nat
  | [] => acc
  | c :: cs =>
    if c = StatusUnauthorized ∨ c = StatusForbidden then c
    else aggregateLoop (if c < acc then c else acc) cs

def aggregateCodes (codes : List Nat) : Nat :=
  aggregateLoop StatusAccepted codes

/-- The set of codes a trigger worker can send (sink.go lines 92-108). -/
def workerCodes : List Nat :=
  [StatusCreated, StatusAccepted, StatusUnauthorized, StatusForbidden]

/-! ## Worker status mapping (sink.go lines 93-108)

Each worker runs `processTrigger` and reports one code:

    if err := r.processTrigger(...); err != nil {
      if kerrors.IsUnauthorized(err) { result <- http.StatusUnauthorized; return }
      if kerrors.IsForbidden(err)    { result <- http.StatusForbidden; return }
      result <- http.StatusAccepted
      return
    }
    result <- http.StatusCreated

A k8s API error is classified by its status reason; `IsUnauthorized` and
`IsForbidden` test for the two reasons below and every other error falls
through to 202.  `none` is the nil-error (success) case. -/

inductive APIErrorClass where
  | unauthorized
  | forbidden
  | otherError
deriving DecidableEq, Repr

def workerCode : Option APIErrorClass → Nat
  | none => StatusCreated
  | some .unauthorized => StatusUnauthorized
  | some .forbidden => StatusForbidden
  | some .otherError => StatusAccepted

/-! ## Result channel (sink.go line 90)

The source allocates the outcome channel with a fixed capacity:

    result := make(chan int, 10)

independent of the number of triggers in the EventListener. -/

structure EventListenerTrigger where
  name : String
deriving DecidableEq, Repr

structure EventListener where
  triggers : List EventListenerTrigger
deriving DecidableEq, Repr

def triggerCount (el : EventListener) : Nat := el.triggers.length

/-- Capacity of the `result` channel created by HandleEvent.  The argument is
the listener whose triggers are dispatched; the source ignores it and always
asks for 10 slots. -/
def resultChanCapacity (_el : EventListener) : Nat := 10

/-- A bounded channel with no consumer: each send succeeds only while the
buffer holds fewer than `cap` items.  `sendAll` performs the given sends in
order and returns the final buffer, or `none` as soon as a send would block. -/
def sendAll (cap : Nat) (codes : List Nat) : Option (List Nat) :=
  codes.foldl
    (fun acc c =>
      acc.bind (fun buf => if buf.length < cap then some (buf ++ [c]) else none))
    (some [])

/-! ## The HTTP response writer (net/http semantics needed by sink.go 128-137)

Per the net/http contract, `WriteHeader` commits the status code together
with a snapshot of the current header map; changing the header map afterwards
has no effect on what is transmitted.  `committed` is the wire-visible status
and header block once set. -/

structure ResponseWriter where
  headerMap : List (String × String)
  committed : Option (Nat × List (String × String))
  sentBody : String
deriving DecidableEq, Repr

def ResponseWriter.initial : ResponseWriter := ⟨[], none, ""⟩

/-- `response.WriteHeader(code)`: the first call freezes the status and the
current header map; later calls are ignored. -/
def writeHeader (code : Nat) (w : ResponseWriter) : ResponseWriter :=
  match w.committed with
  | some _ => w
  | none => { w with committed := some (code, w.headerMap) }

/-- `response.Header().Set(k, v)`: updates the handler-side header map.  The
committed snapshot, if any, is untouched. -/
def headerSet (k v : String) (w : ResponseWriter) : ResponseWriter :=
  { w with headerMap := (k, v) :: w.headerMap.filter (fun kv => kv.1 ≠ k) }

/-- `response.Write(p)`: commits status 200 with the current headers if
nothing was committed yet, then appends the bytes to the body. -/
def writeBody (p : String) (w : ResponseWriter) : ResponseWriter :=
  let w1 := writeHeader 200 w
  { w1 with sentBody := w1.sentBody ++ p }

/-- The headers actually transmitted: those frozen at WriteHeader time. -/
def sentHeaders (w : ResponseWriter) : List (String × String) :=
  match w.committed with
  | some (_, hs) => hs
  | none => []

def sentStatus (w : ResponseWriter) : Option Nat :=
  match w.committed with
  | some (code, _) => some code
  | none => none

/-! ## Sink response body (sink.go lines 60-68 and 128-137)

    type Response struct {
      EventListener string `json:"eventListener"`
      Namespace string     `json:"namespace,omitempty"`
      EventID string       `json:"eventID,omitempty"`
    }

`json.NewEncoder(response).Encode(body)` writes the compact JSON encoding of
the struct followed by a newline.  The `omitempty` fields are dropped when
empty. -/

structure SinkResponse where
  eventListener : String
  namespace0 : String
  eventID : String
deriving DecidableEq, Repr

def quoteChar : Char := '"'

def jsonQuote (s : String) : String :=
  ⟨quoteChar :: (s.data ++ [quoteChar])⟩

def jsonField (k v : String) : String :=
  jsonQuote k ++ ":" ++ jsonQuote v

def openBrace : String := ⟨['\x7b']⟩
def closeBrace : String := ⟨['\x7d']⟩

/-- Compact `encoding/json` output for `Response`, newline-terminated as
`json.Encoder.Encode` produces it. -/
def encodeSinkResponse (b : SinkResponse) : String :=
  openBrace
    ++ jsonField "eventListener" b.eventListener
    ++ (if b.namespace0 = "" then "" else "," ++ jsonField "namespace" b.namespace0)
    ++ (if b.eventID = "" then "" else "," ++ jsonField "eventID" b.eventID)
    ++ closeBrace ++ "\n"

/-- The response-writing tail of `HandleEvent` (sink.go lines 128-137), in the
exact order of the source:

    response.WriteHeader(code)
    response.Header().Set("Content-Type", "application/json")
    body := Response{...}
    json.NewEncoder(response).Encode(body)
-/
def handleEventRespond (code : Nat) (b : SinkResponse) (w : ResponseWriter) :
    ResponseWriter :=
  writeBody (encodeSinkResponse b) (headerSet "Content-Type" "application/json" (writeHeader code w))

/-! ## Interceptor specs and parameter canonicalization
(pkg/apis/triggers/v1alpha1 and pkg/interceptors/interceptors.go) -/

structure SecretRef where
  secretName : String
  secretKey : String
deriving DecidableEq, Repr

structure GitHubInterceptor where
  secretRef : Option SecretRef
  eventTypes : Option (List String)
deriving DecidableEq, Repr

structure GitLabInterceptor where
  secretRef : Option SecretRef
  eventTypes : Option (List String)
deriving DecidableEq, Repr

structure BitbucketInterceptor where
  secretRef : Option SecretRef
  eventTypes : Option (List String)
deriving DecidableEq, Repr

structure CELOverlay where
  key : String
  expression : String
deriving DecidableEq, Repr

structure CELInterceptor where
  filter : String
  overlays : Option (List CELOverlay)
deriving DecidableEq, Repr

structure WebhookInterceptor where
  objectRef : String
deriving DecidableEq, Repr

/-- `EventInterceptor`: a struct of optional variants; Go code dispatches on
the first non-nil field in the order webhook, github, gitlab, cel, bitbucket
(interceptors.go lines 89-124). -/
structure EventInterceptor where
  webhook : Option WebhookInterceptor
  github : Option GitHubInterceptor
  gitlab : Option GitLabInterceptor
  cel : Option CELInterceptor
  bitbucket : Option BitbucketInterceptor
deriving DecidableEq, Repr

/-- Values stored in the `interceptorParams` map. -/
inductive ParamValue where
  | eventTypesV (ts : List String)
  | secretRefV (sr : SecretRef)
  | filterV (f : String)
  | overlaysV (os : List CELOverlay)
deriving DecidableEq, Repr

/-- `GetInterceptorParams` (interceptors.go lines 87-127), translated clause
by clause.  The map is modeled as an association list in insertion order. -/
def GetInterceptorParams (i : EventInterceptor) : List (String × ParamValue) :=
  match i.webhook with
  | some _ => []
  | none =>
    match i.github with
    | some g =>
      (match g.eventTypes with
       | some ts => [("eventTypes", ParamValue.eventTypesV ts)]
       | none => []) ++
      (match g.secretRef with
       | some sr => [("secretRef", ParamValue.secretRefV sr)]
       | none => [])
    | none =>
      match i.gitlab with
      | some g =>
        (match g.eventTypes with
         | some ts => [("eventTypes", ParamValue.eventTypesV ts)]
         | none => []) ++
        (match g.secretRef with
         | some sr => [("secretRef", ParamValue.secretRefV sr)]
         | none => [])
      | none =>
        match i.cel with
        | some c =>
          (if c.filter = "" then [] else [("filter", ParamValue.filterV c.filter)]) ++
          (match c.overlays with
           | some os => [("overlays", ParamValue.overlaysV os)]
           | none => [])
        | none =>
          match i.bitbucket with
          | some b =>
            (match b.eventTypes with
             | some ts => [("eventTypes", ParamValue.eventTypesV ts)]
             | none => []) ++
            (match b.secretRef with
             | some sr => [("secretRef", ParamValue.secretRefV sr)]
             | none => [])
          | none => []

def mkWebhookInterceptor (w : WebhookInterceptor) : EventInterceptor :=
  ⟨some w, none, none, none, none⟩

def mkGitHubInterceptor (g : GitHubInterceptor) : EventInterceptor :=
  ⟨none, some g, none, none, none⟩

def mkGitLabInterceptor (g : GitLabInterceptor) : EventInterceptor :=
  ⟨none, none, some g, none, none⟩

def mkCELInterceptor (c : CELInterceptor) : EventInterceptor :=
  ⟨none, none, none, some c, none⟩

def mkBitbucketInterceptor (b : BitbucketInterceptor) : EventInterceptor :=
  ⟨none, none, none, none, some b⟩

/-! ## ParseTriggerID (pkg/apis/triggers/v1alpha1/interceptor_types.go 47-54)

    splits := strings.Split(triggerID, "/")
    if len(splits) != 4 { return "", "" }
    return splits[1], splits[3]

`splitOnSep` is Go `strings.Split` for a one-character separator: it cuts the
rune list at every separator occurrence, keeping empty segments. -/

def splitRunsAux (sep : Char) : List Char → List Char → List (List Char)
  | [], acc => [acc.reverse]
  | c :: cs, acc =>
    if c = sep then acc.reverse :: splitRunsAux sep cs []
    else splitRunsAux sep cs (c :: acc)

def splitOnSep (sep : Char) (s : String) : List String :=
  (splitRunsAux sep s.data []).map (fun cs => ⟨cs⟩)

def ParseTriggerID (triggerID : String) : String × String :=
  match splitOnSep '/' triggerID with
  | [_, ns, _, n] => (ns, n)
  | _ => ("", "")

/-- TriggerID construction used by `ExecuteInterceptors` (sink.go line 208):
`fmt.Sprintf("namespaces/%s/triggers/%s", ns, name)`. -/
def mkTriggerID (ns name : String) : String :=
  "namespaces/" ++ ns ++ "/triggers/" ++ name

/-! ## gRPC status model (google.golang.org/grpc, as used by the interceptors) -/

inductive StatusCode where
  | okCode
  | invalidArgument
  | failedPrecondition
  | internalError
deriving DecidableEq, Repr

structure GrpcStatus where
  code : StatusCode
  message : String
deriving DecidableEq, Repr

/-! ## Interceptor request/response wire types (interceptor_types.go 14-45) -/

structure TriggerContext where
  eventURL : String
  eventID : String
  triggerID : String
deriving DecidableEq, Repr

structure InterceptorRequest where
  body : String
  header : List (String × List String)
  triggerContext : TriggerContext
deriving DecidableEq, Repr

/-- `http.Header.Get`: first value for the (canonicalized) key, or empty. -/
def headerGet (h : List (String × List String)) (k : String) : String :=
  match h.lookup k with
  | some (v :: _) => v
  | _ => ""

/-! ## GitLab interceptor Process (src/unnamed/part_007 lines 99-163)

The source declares

    var p *params
    if err := json.Unmarshal(b, p); err != nil { ... }

passing a nil `*params` to `json.Unmarshal`, which in Go unconditionally
fails with `InvalidUnmarshalError` ("json: Unmarshal(nil *gitlab.params)").
`gitlabUnmarshalNilTarget` embeds exactly that call. -/

structure GitLabProcessParams where
  secretRef : Option SecretRef
  eventTypes : Option (List String)
deriving DecidableEq, Repr

def gitlabUnmarshalNilTarget (_jsonBytes : String) :
    Except String GitLabProcessParams :=
  .error "json: Unmarshal(nil *gitlab.params)"

/-- Marshaling the interceptor params map back to JSON text; it always
succeeds on the map values this interceptor receives.  Only its success
matters downstream, so the model returns a placeholder rendering. -/
def gitlabMarshalParams (_p : List (String × ParamValue)) : Except String String :=
  .ok "params-json"

/-- Secret store oracle: `(namespace, secretName) -> secret data map`. -/
def SecretStore : Type := String → String → Except String (List (String × String))

/-- `subtle.ConstantTimeCompare(a, b) == 0` is byte-equality failure; the
model keeps the comparison result (timing is not modeled). -/
def constantTimeEq (a b : String) : Bool := a = b

/-- The second half of gitlab `Process` (lines 116-162), as run on decoded
params `p`.  On the real execution path this is dead code, because decoding
always fails; it is embedded in full for fidelity. -/
def gitlabProcessDecoded (secrets : SecretStore) (p : GitLabProcessParams)
    (r : InterceptorRequest) : Bool × Option GrpcStatus :=
  match p.secretRef with
  | some sr =>
    let header := headerGet r.header "X-GitLab-Token"
    if header = "" then
      (false, some ⟨.invalidArgument, "no X-GitLab-Token header set"⟩)
    else
      let ns := (ParseTriggerID r.triggerContext.triggerID).1
      match secrets ns sr.secretName with
      | .error e => (false, some ⟨.internalError, "error getting secret: " ++ e⟩)
      | .ok data =>
        let secretToken := (data.lookup sr.secretKey).getD ""
        if constantTimeEq header secretToken then
          gitlabEventTypeCheck p r
        else
          (false, some ⟨.invalidArgument, "Invalid X-GitLab-Token"⟩)
  | none => gitlabEventTypeCheck p r
where
  gitlabEventTypeCheck (p : GitLabProcessParams) (r : InterceptorRequest) :
      Bool × Option GrpcStatus :=
    match p.eventTypes with
    | some allowed =>
      let actual := headerGet r.header "X-GitLab-Event"
      if allowed.contains actual then (true, none)
      else
        (false,
         some ⟨.failedPrecondition, "event type " ++ actual ++ " is not allowed"⟩)
    | none => (true, none)

/-- gitlab `Process` (part_007 lines 99-163).  Returns the response as
`(continue, status)`; extensions are never set by this interceptor. -/
def gitlabProcess (secrets : SecretStore) (params : List (String × ParamValue))
    (r : InterceptorRequest) : Bool × Option GrpcStatus :=
  match gitlabMarshalParams params with
  | .error e => (false, some ⟨.invalidArgument, "failed to marshal json: " ++ e⟩)
  | .ok b =>
    match gitlabUnmarshalNilTarget b with
    | .error e => (false, some ⟨.invalidArgument, "invalid json: " ++ e⟩)
    | .ok p => gitlabProcessDecoded secrets p r

/-! ## JSON values, compact serialization and a parser

Used by the CEL extensions path (sjson / json.Unmarshal) and by the
`$(body)` / `$(header)` substitution round-trip.  The serializer writes the
compact form `encoding/json` produces; its number case covers the integers
(the claims under verification serialize no fractional numbers). -/

def openBraceChar : Char := '\x7b'
def closeBraceChar : Char := '\x7d'

inductive Jval where
  | null
  | bool (b : Bool)
  | num (n : Int)
  | str (s : String)
  | arr (elems : List Jval)
  | obj (fields : List (String × Jval))

/-- JSON escaping of one character as Go `encoding/json` performs it on
strings of printable ASCII without `<`, `>`, `&` (those would be written as
unicode escapes, and control characters as `\uXXXX`). -/
def escJsonChar (c : Char) : List Char :=
  if c = quoteChar then ['\\', quoteChar]
  else if c = '\\' then ['\\', '\\']
  else [c]

def serStrBody : List Char → List Char
  | [] => []
  | c :: r => escJsonChar c ++ serStrBody r

def serStr (s : String) : List Char :=
  quoteChar :: (serStrBody s.data ++ [quoteChar])

def nullChars : List Char := ['n', 'u', 'l', 'l']
def trueChars : List Char := ['t', 'r', 'u', 'e']
def falseChars : List Char := ['f', 'a', 'l', 's', 'e']

mutual

def serVal : Jval → List Char
  | .null => nullChars
  | .bool true => trueChars
  | .bool false => falseChars
  | .num n => (toString n).data
  | .str s => serStr s
  | .arr xs => '[' :: (serSeq xs ++ [']'])
  | .obj fs => openBraceChar :: (serFieldSeq fs ++ [closeBraceChar])

def serSeq : List Jval → List Char
  | [] => []
  | [x] => serVal x
  | x :: y :: ys => serVal x ++ ',' :: serSeq (y :: ys)

def serFieldSeq : List (String × Jval) → List Char
  | [] => []
  | [(k, v)] => serStr k ++ ':' :: serVal v
  | (k, v) :: f :: fs => serStr k ++ ':' :: serVal v ++ ',' :: serFieldSeq (f :: fs)

end

/-- Recognized escape shorthands when parsing a JSON string. -/
def unescChar (c : Char) : Option Char :=
  if c = quoteChar then some quoteChar
  else if c = '\\' then some '\\'
  else if c = '/' then some '/'
  else if c = 'n' then some '\n'
  else if c = 't' then some '\t'
  else if c = 'r' then some '\r'
  else none

/-- Parse a JSON string body after the opening quote. -/
def pStrAux (acc : List Char) : List Char → Option (String × List Char)
  | [] => none
  | c :: r =>
    if c = quoteChar then some (⟨acc.reverse⟩, r)
    else if c = '\\' then
      match r with
      | [] => none
      | e :: r2 =>
        match unescChar e with
        | some ch => pStrAux (ch :: acc) r2
        | none => none
    else pStrAux (c :: acc) r

def takeDigitRun : List Char → List Char × List Char
  | [] => ([], [])
  | c :: r =>
    if c.isDigit then
      let (ds, r2) := takeDigitRun r
      (c :: ds, r2)
    else ([], c :: r)

def digitRunVal (ds : List Char) : Nat :=
  ds.foldl (fun a c => a * 10 + (c.toNat - 48)) 0

/-- Integer literals (the claims under verification never re-parse
fractional numbers). -/
def pNum (cs : List Char) : Option (Jval × List Char) :=
  match cs with
  | '-' :: r =>
    (match takeDigitRun r with
     | ([], _) => none
     | (ds, r2) => some (.num (-(digitRunVal ds : Int)), r2))
  | _ =>
    match takeDigitRun cs with
    | ([], _) => none
    | (ds, r2) => some (.num ((digitRunVal ds : Nat) : Int), r2)

/-- Literal continuations for `null`, `true`, `false`. -/
def pLitNull : List Char → Option (Jval × List Char)
  | 'u' :: 'l' :: 'l' :: r => some (.null, r)
  | _ => none

def pLitTrue : List Char → Option (Jval × List Char)
  | 'r' :: 'u' :: 'e' :: r => some (.bool true, r)
  | _ => none

def pLitFalse : List Char → Option (Jval × List Char)
  | 'a' :: 'l' :: 's' :: 'e' :: r => some (.bool false, r)
  | _ => none

mutual

def pVal : Nat → List Char → Option (Jval × List Char)
  | 0, _ => none
  | _ + 1, [] => none
  | f + 1, c :: cs =>
    if c = quoteChar then (pStrAux [] cs).map (fun p => (.str p.1, p.2))
    else if c = '[' then pArr f cs
    else if c = openBraceChar then pObj f cs
    else if c = 'n' then pLitNull cs
    else if c = 't' then pLitTrue cs
    else if c = 'f' then pLitFalse cs
    else pNum (c :: cs)
  termination_by f _ => (f, 9)

def pArr : Nat → List Char → Option (Jval × List Char)
  | f, d :: r =>
    if d = ']' then some (.arr [], r)
    else (pItems f (d :: r)).map (fun p => (.arr p.1, p.2))
  | f, [] => (pItems f []).map (fun p => (.arr p.1, p.2))
  termination_by f _ => (f, 5)

def pObj : Nat → List Char → Option (Jval × List Char)
  | f, d :: r =>
    if d = closeBraceChar then some (.obj [], r)
    else (pFields f (d :: r)).map (fun p => (.obj p.1, p.2))
  | _, [] => none
  termination_by f _ => (f, 5)

def pItems : Nat → List Char → Option (List Jval × List Char)
  | 0, _ => none
  | f + 1, cs => pItemsCont f (pVal f cs)
  termination_by f _ => (f, 3)

def pItemsCont : Nat → Option (Jval × List Char) → Option (List Jval × List Char)
  | f, some (v, d :: r) =>
    if d = ',' then (pItems f r).map (fun p => (v :: p.1, p.2))
    else if d = ']' then some ([v], r)
    else none
  | _, _ => none
  termination_by f _ => (f, 4)

def pFields : Nat → List Char → Option (List (String × Jval) × List Char)
  | 0, _ => none
  | _ + 1, [] => none
  | f + 1, c :: cs2 =>
    if c = quoteChar then pFieldsKey f (pStrAux [] cs2) else none
  termination_by f _ => (f, 3)

def pFieldsKey :
    Nat → Option (String × List Char) → Option (List (String × Jval) × List Char)
  | f, some (k, d :: r) =>
    if d = ':' then pFieldsVal f k (pVal f r) else none
  | _, _ => none
  termination_by f _ => (f, 11)

def pFieldsVal : Nat → String → Option (Jval × List Char) →
    Option (List (String × Jval) × List Char)
  | f, k, some (v, d2 :: r2) =>
    if d2 = ',' then (pFields f r2).map (fun p => ((k, v) :: p.1, p.2))
    else if d2 = closeBraceChar then some ([(k, v)], r2)
    else none
  | _, _, _ => none
  termination_by f _ _ => (f, 10)

end

/-- Parse a complete JSON document (compact form, as the serializer and the
Go sources under verification emit it). -/
def parseJson (s : String) : Option Jval :=
  match pVal (s.data.length + 1) s.data with
  | some (v, []) => some v
  | _ => none

/-! ## The substitution escaping (template package)

`$(body)` and `$(header)` substitute JSON text with every double quote
escaped; the inverse replaces every `\"` back (Go `strings.Replace`
semantics: left to right, non-overlapping). -/

def escQuotesL : List Char → List Char
  | [] => []
  | c :: r => (if c = quoteChar then ['\\', quoteChar] else [c]) ++ escQuotesL r

def unescQuotesL : List Char → List Char
  | [] => []
  | [c] => [c]
  | c :: c2 :: r2 =>
    if c = '\\' ∧ c2 = quoteChar then quoteChar :: unescQuotesL r2
    else c :: unescQuotesL (c2 :: r2)

def escapeQuotes (s : String) : String := ⟨escQuotesL s.data⟩
def unescapeQuotes (s : String) : String := ⟨unescQuotesL s.data⟩

/-! ## Canonical header JSON (Go `json.Marshal` of `map[string][]string`:
object keys emitted in ascending string order, each value a string array). -/

def headerEntries (h : List (String × List String)) :
    List (String × List String) :=
  List.insertionSort (fun a b => a.1 ≤ b.1) h

def toHeaderField (kv : String × List String) : String × Jval :=
  (kv.1, Jval.arr (kv.2.map Jval.str))

def headerJson (h : List (String × List String)) : Jval :=
  .obj ((headerEntries h).map toHeaderField)

/-- Modelled from the spec: the template package implementation
(`getBodyPathValue` with an empty path, pkg/template/event.go) is absent
from src/ — only its tests are present (src/unnamed/part_003,
Test_getBodyPathValue).  Per the spec and those tests, `$(body)` substitutes
the entire body JSON text with every `"` escaped as `\"`. -/
def bodySubstitution (body : String) : String := escapeQuotes body

/-- Modelled from the spec: the template package implementation
(`getHeaderValue` with an empty name) is absent from src/ — only its tests
are present (src/unnamed/part_003, Test_getHeaderValue).  Per the spec and
those tests, `$(header)` substitutes the canonical JSON object of the header
map (keys sorted ascending) with every `"` escaped as `\"`. -/
def headerSubstitution (h : List (String × List String)) : String :=
  escapeQuotes ⟨serVal (headerJson h)⟩

/-- Strings Go `encoding/json` writes with only `\"` and `\\` escapes:
printable ASCII without the HTML-escaped characters. -/
def goPlainChar (c : Char) : Prop :=
  32 ≤ c.toNat ∧ c.toNat < 127 ∧ c ≠ '<' ∧ c ≠ '>' ∧ c ≠ '&'

instance : DecidablePred goPlainChar := fun c => by
  unfold goPlainChar; infer_instance

def goPlainString (s : String) : Prop := ∀ c ∈ s.data, goPlainChar c

instance : DecidablePred goPlainString := fun s => by
  unfold goPlainString; infer_instance

/-- Well-formed header map: pairwise-distinct keys (Go maps cannot repeat a
key) and all strings in the printable range `encoding/json` leaves
unescaped. -/
def headerWF (h : List (String × List String)) : Prop :=
  (h.map Prod.fst).Nodup ∧
  ∀ kv ∈ h, goPlainString kv.1 ∧ ∀ v ∈ kv.2, goPlainString v

instance : DecidablePred headerWF := fun h => by
  unfold headerWF; infer_instance

/-! ## CEL interceptor (pkg/interceptors/cel/cel.go)

The CEL engine itself is an external library (out of scope per the spec);
evaluation is a parameter `evalFn : String → Except String CelVal`.  What is
embedded from the source is everything around it: the filter check, the
per-overlay serialization switch, the `sjson.SetRawBytes` dotted-path
setter, and the final `json.Unmarshal` of the extensions bytes. -/

/-- Results of CEL evaluation, as discriminated by the serialization switch
in `Process` (cel.go lines 299-336): strings, numbers, booleans, listers,
mappers, and the default raw-bytes case (whose bytes are inserted verbatim
as raw JSON; `raw` carries their parsed form). -/
inductive CelVal where
  | str (s : String)
  | num (n : Int)
  | bool (b : Bool)
  | list (xs : List CelVal)
  | map (fs : List (String × CelVal))
  | raw (j : Jval)

mutual

/-- The serialization switch of the overlay loop: each evaluated value is
turned into the JSON bytes set into the extensions document. -/
def celToJson : CelVal → Jval
  | .str s => .str s
  | .num n => .num n
  | .bool b => .bool b
  | .list xs => .arr (celListToJson xs)
  | .map fs => .obj (celMapToJson fs)
  | .raw j => j

def celListToJson : List CelVal → List Jval
  | [] => []
  | x :: xs => celToJson x :: celListToJson xs

def celMapToJson : List (String × CelVal) → List (String × Jval)
  | [] => []
  | (k, v) :: fs => (k, celToJson v) :: celMapToJson fs

end

/-! `sjson.SetRawBytes(doc, key, raw)`: the key is a dotted path; the setter
descends through objects, creating missing intermediate objects, and
replaces whatever sits at the final path segment.  (The sjson path language
also has array and escape forms; the code under verification only uses
plain dotted keys.) -/

/-- Replace the value at `k` in an object field list, or append the pair if
the key is absent (how sjson writes a member). -/
def replaceField : List (String × Jval) → String → Jval → List (String × Jval)
  | [], k, v => [(k, v)]
  | (k0, v0) :: fs, k, v =>
    if k0 = k then (k0, v) :: fs
    else (k0, v0) :: replaceField fs k v

/-- The members of a JSON object; anything else contributes none (sjson
replaces a non-object intermediate value by a fresh object). -/
def objFields : Jval → List (String × Jval)
  | .obj fs => fs
  | _ => []

def setPath : Jval → List String → Jval → Jval
  | _, [], v => v
  | j, k :: rest, v =>
    .obj (replaceField (objFields j) k
      (setPath (((objFields j).lookup k).getD (.obj [])) rest v))

/-- `sjson` path split: dotted key to segments. -/
def sjsonPath (key : String) : List String :=
  (splitRunsAux '.' key.data []).map (fun cs => ⟨cs⟩)

/-- One overlay application:
`extensions = sjson.SetRawBytes(extensions, u.Key, b)` after initializing a
nil document to `\x7b\x7d` (cel.go lines 346-349). -/
def applyOverlay (ext : Option Jval) (key : String) (b : Jval) : Jval :=
  setPath (ext.getD (.obj [])) (sjsonPath key) b

/-- The overlay loop of `Process` (cel.go lines 287-357): evaluate each
overlay expression in declaration order, serialize, and set at the dotted
key; any evaluation error aborts with an InvalidArgument response. -/
def runOverlays (evalFn : String → Except String CelVal) :
    List CELOverlay → Option Jval → Except GrpcStatus (Option Jval)
  | [], ext => .ok ext
  | o :: os, ext =>
    match evalFn o.expression with
    | .error e =>
      .error ⟨.invalidArgument, "error evaluating cel expression: " ++ e⟩
    | .ok v =>
      runOverlays evalFn os (some (applyOverlay ext o.key (celToJson v)))

/-- The Go comparison `out == types.True`: the evaluated value is the CEL
boolean `true` (any other value, boolean false included, differs). -/
def isCelTrue : CelVal → Bool
  | .bool true => true
  | _ => false

/-- A CEL interceptor response: continue flag, optional extensions map,
optional status. -/
structure CelResponse where
  cont : Bool
  extensions : Option (List (String × Jval))
  status : Option GrpcStatus

/-- The overlay half of CEL `Process` (cel.go lines 284-377): run the
overlay loop and, when extensions were produced, unmarshal them into the
response's extensions map; a nil extensions document continues without one. -/
def celProcessOverlays (evalFn : String → Except String CelVal)
    (p : CELInterceptor) : CelResponse :=
  match runOverlays evalFn (p.overlays.getD []) none with
  | .error st => ⟨false, none, some st⟩
  | .ok none => ⟨true, none, none⟩
  | .ok (some ext) =>
    match ext with
    | .obj fs => ⟨true, some fs, none⟩
    | _ =>
      ⟨false, none,
       some ⟨.internalError, "failed to unmarshall extensions into map"⟩⟩

/-- CEL `Process` (cel.go lines 222-377) after the environment setup.
`ctxOk` is the outcome of `makeEvalContext` (it fails when the body is not
JSON); params decode via `json.Unmarshal(b, &p)` with a fresh non-nil
target, which round-trips the marshaled map, so `p` arrives intact. -/
def celProcess (ctxOk : Except String Unit)
    (evalFn : String → Except String CelVal) (p : CELInterceptor) : CelResponse :=
  match ctxOk with
  | .error e =>
    ⟨false, none, some ⟨.invalidArgument, "error making the evaluation context: " ++ e⟩⟩
  | .ok _ =>
    if p.filter ≠ "" then
      match evalFn p.filter with
      | .error e =>
        ⟨false, none, some ⟨.invalidArgument, "error evaluating cel expression: " ++ e⟩⟩
      | .ok v =>
        if isCelTrue v then celProcessOverlays evalFn p
        else
          ⟨false, none,
           some ⟨.failedPrecondition,
                 "expression " ++ p.filter ++ " did not return true"⟩⟩
    else celProcessOverlays evalFn p

/-- The spec-side description of the overlay pass (spec section 4.2, CEL
semantics item 3), stated as a declaration-order fold: evaluate each overlay
expression, serialize the value to its canonical JSON form, and set it at
the overlay's dotted key.  The theorem for claim C6 compares the code's loop
against it. -/
def specOverlayFold (evalFn : String → Except String CelVal)
    (ovs : List CELOverlay) (ext : Option Jval) : Option Jval :=
  ovs.foldl
    (fun e o =>
      match evalFn o.expression with
      | .ok v => some (applyOverlay e o.key (celToJson v))
      | .error _ => e)
    ext

/-- A listener with 12 triggers, as HandleEvent would dispatch it. -/
def elTwelve : EventListener := ⟨List.replicate 12 ⟨"t"⟩⟩

/-- Fuel needed by the parser for an object of string-array members. -/
def entriesFuel : List (String × List String) → Nat
  | [] => 0
  | (_, vs) :: es => vs.length + 3 + entriesFuel es

/-! ## Aggregation lemmas (claim C1) -/

theorem aggregateLoop_stops_at_auth (cs1 : List Nat)
    (h1 : ∀ x ∈ cs1, x ≠ StatusUnauthorized ∧ x ≠ StatusForbidden)
    (c : Nat) (hc : c = StatusUnauthorized ∨ c = StatusForbidden)
    (cs2 : List Nat) : ∀ acc, aggregateLoop acc (cs1 ++ c :: cs2) = c := by
  induction cs1 with
  | nil =>
    intro acc
    simp only [List.nil_append, aggregateLoop, if_pos hc]
  | cons x xs ih =>
    intro acc
    have hx := h1 x (List.mem_cons_self x xs)
    simp only [List.cons_append, aggregateLoop]
    rw [if_neg (by rintro (h | h) <;> [exact hx.1 h; exact hx.2 h])]
    exact ih (fun y hy => h1 y (List.mem_cons_of_mem x hy)) _

theorem aggregateLoop_no_auth (cs : List Nat)
    (hv : ∀ x ∈ cs, x ∈ workerCodes)
    (hna : ∀ x ∈ cs, x ≠ StatusUnauthorized ∧ x ≠ StatusForbidden) :
    ∀ acc, acc = StatusCreated ∨ acc = StatusAccepted →
      aggregateLoop acc cs =
        if acc = StatusCreated ∨ StatusCreated ∈ cs then StatusCreated
        else StatusAccepted := by
  induction cs with
  | nil =>
    intro acc hacc
    rcases hacc with h | h <;> subst h <;> simp [aggregateLoop, StatusCreated, StatusAccepted]
  | cons x xs ih =>
    intro acc hacc
    have hx : x = StatusCreated ∨ x = StatusAccepted := by
      have hmem := hv x (List.mem_cons_self x xs)
      have hxa := hna x (List.mem_cons_self x xs)
      simp only [workerCodes, List.mem_cons, List.mem_singleton] at hmem
      rcases hmem with h | h | h | h
      · exact Or.inl h
      · exact Or.inr h
      · exact absurd h hxa.1
      · simp at h
        exact absurd h hxa.2
    have hxna := hna x (List.mem_cons_self x xs)
    simp only [aggregateLoop]
    rw [if_neg (by rintro (h | h) <;> [exact hxna.1 h; exact hxna.2 h])]
    have hrec := ih (fun y hy => hv y (List.mem_cons_of_mem x hy))
      (fun y hy => hna y (List.mem_cons_of_mem x hy))
    rcases hx with hx | hx <;> rcases hacc with hacc | hacc <;> subst hx <;> subst hacc <;>
      simp_all [StatusCreated, StatusAccepted, aggregateLoop, List.mem_cons]

theorem aggregateCodes_eq_created_iff (cs : List Nat)
    (hv : ∀ x ∈ cs, x ∈ workerCodes) :
    aggregateCodes cs = StatusCreated ↔
      StatusCreated ∈ cs ∧
        ∀ x ∈ cs, x ≠ StatusUnauthorized ∧ x ≠ StatusForbidden := by
  by_cases hna : ∀ x ∈ cs, x ≠ StatusUnauthorized ∧ x ≠ StatusForbidden
  · rw [aggregateCodes, aggregateLoop_no_auth cs hv hna StatusAccepted (Or.inr rfl)]
    constructor
    · intro h
      refine ⟨?_, hna⟩
      by_contra hmem
      have hcond : ¬(StatusAccepted = StatusCreated ∨ StatusCreated ∈ cs) := by
        rintro (h2 | h2)
        · exact absurd h2 (by decide)
        · exact hmem h2
      rw [if_neg hcond] at h
      exact absurd h (by decide)
    · intro h
      rw [if_pos (Or.inr h.1)]
  · push_neg at hna
    obtain ⟨b, hb, hbad⟩ := hna
    have hauth : b = StatusUnauthorized ∨ b = StatusForbidden := by
      by_cases h1 : b = StatusUnauthorized
      · exact Or.inl h1
      · exact Or.inr (hbad h1)
    obtain ⟨cs1, cs2, hsplit, hfirst⟩ :
        ∃ cs1 cs2, cs = cs1 ++ cs2 ∧
          (∀ x ∈ cs1, x ≠ StatusUnauthorized ∧ x ≠ StatusForbidden) ∧
          ∃ c cs3, cs2 = c :: cs3 ∧ (c = StatusUnauthorized ∨ c = StatusForbidden) := by
      clear hv
      induction cs with
      | nil => exact absurd hb (List.not_mem_nil b)
      | cons y ys ih =>
        by_cases hy : y = StatusUnauthorized ∨ y = StatusForbidden
        · exact ⟨[], y :: ys, rfl, by simp, y, ys, rfl, hy⟩
        · push_neg at hy
          have hbys : b ∈ ys := by
            rcases List.mem_cons.mp hb with h | h
            · subst h
              rcases hauth with h2 | h2 <;> [exact absurd h2 hy.1; exact absurd h2 hy.2]
            · exact h
          obtain ⟨cs1, cs2, hs, hf, c, cs3, hc2, hc⟩ := ih hbys
          exact ⟨y :: cs1, cs2, by simp [hs], by
            intro x hx
            rcases List.mem_cons.mp hx with h | h
            · subst h; exact hy
            · exact hf x h, c, cs3, hc2, hc⟩
    obtain ⟨hno, c, cs3, hc2, hc⟩ := hfirst
    subst hc2
    rw [hsplit, aggregateCodes, aggregateLoop_stops_at_auth cs1 hno c hc cs3]
    constructor
    · intro h
      exfalso
      rcases hc with h2 | h2 <;> subst h2 <;> exact absurd h (by decide)
    · rintro ⟨-, hall⟩
      exfalso
      have := hall c (by simp)
      rcases hc with h2 | h2 <;> [exact this.1 h2; exact this.2 h2]

/-- Claim C1 (amended): HandleEvent reduces the per-trigger codes by starting
from 202, making the final code 401 or 403 and stopping consumption at the
first such code, and otherwise taking the minimum under 201 < 202; with zero
triggers the response is 202; and the status is 201 iff at least one worker
reported 201 and no consumed code was 401 or 403 (a 401/403 anywhere in the
consumed sequence overrides an earlier 201, because the break always fires
at the first such code). -/
theorem handleEvent_aggregation :
    aggregateCodes [] = StatusAccepted ∧
    (∀ cs, (∀ x ∈ cs, x ∈ workerCodes) →
      (aggregateCodes cs = StatusCreated ↔
        StatusCreated ∈ cs ∧
          ∀ x ∈ cs, x ≠ StatusUnauthorized ∧ x ≠ StatusForbidden)) ∧
    (∀ cs1 c cs2, (∀ x ∈ cs1, x ≠ StatusUnauthorized ∧ x ≠ StatusForbidden) →
      (c = StatusUnauthorized ∨ c = StatusForbidden) →
      aggregateCodes (cs1 ++ c :: cs2) = c) ∧
    (∀ cs, (∀ x ∈ cs, x ∈ workerCodes) →
      (∀ x ∈ cs, x ≠ StatusUnauthorized ∧ x ≠ StatusForbidden) →
      aggregateCodes cs =
        if StatusCreated ∈ cs then StatusCreated else StatusAccepted) := by
  refine ⟨rfl, aggregateCodes_eq_created_iff, ?_, ?_⟩
  · intro cs1 c cs2 h1 hc
    exact aggregateLoop_stops_at_auth cs1 h1 c hc cs2 StatusAccepted
  · intro cs hv hna
    rw [aggregateCodes, aggregateLoop_no_auth cs hv hna StatusAccepted (Or.inr rfl)]
    have hiff : (StatusAccepted = StatusCreated ∨ StatusCreated ∈ cs) ↔
        StatusCreated ∈ cs := by
      constructor
      · rintro (h | h)
        · exact absurd h (by decide)
        · exact h
      · exact Or.inr
    rw [if_congr hiff rfl rfl]

/-- Claim C1, counterexample to the claim as stated: in arrival order
`[201, 401]` a worker reported 201 with no 401 or 403 consumed before it
(the 201 is the first consumed code), yet the final status is 401, not
201 — the break fires at the later 401 and overrides the earlier 201. -/
theorem handleEvent_aggregation_counterexample :
    [StatusCreated, StatusUnauthorized].head? = some StatusCreated ∧
    aggregateCodes [StatusCreated, StatusUnauthorized] = StatusUnauthorized ∧
    StatusUnauthorized ≠ StatusCreated := by decide

/-- Claim C1, witness: the amended characterization applied at the concrete
arrival order `[202, 201]`. -/
theorem handleEvent_aggregation_witness :
    aggregateCodes [StatusAccepted, StatusCreated] = StatusCreated :=
  (handleEvent_aggregation.2.1 [StatusAccepted, StatusCreated] (by decide)).mpr
    (by decide)

/-! ## Channel capacity (claim C4) -/

theorem sendAll_succeeds_aux (codes : List Nat) :
    ∀ (cap : Nat) (buf : List Nat), buf.length + codes.length ≤ cap →
      (codes.foldl
        (fun acc c =>
          acc.bind (fun b => if b.length < cap then some (b ++ [c]) else none))
        (some buf)).isSome := by
  induction codes with
  | nil =>
    intro cap buf _
    simp
  | cons c cs ih =>
    intro cap buf hle
    simp only [List.foldl_cons, Option.some_bind]
    have hlt : buf.length < cap := by
      simp only [List.length_cons] at hle
      omega
    rw [if_pos hlt]
    exact ih cap (buf ++ [c])
      (by simp only [List.length_append, List.length_cons, List.length_nil] at hle ⊢; omega)

/-- Claim C4, counterexample: the source allocates the result channel as
`make(chan int, 10)`, so for an EventListener with 12 triggers the capacity
is 10 < 12; when the dispatcher consumes only the first code (a 401) and
stops, the remaining 11 single sends cannot all complete on the 10-slot
buffer — the last sender blocks. -/
theorem chanCapacity_counterexample :
    resultChanCapacity elTwelve < triggerCount elTwelve ∧
    sendAll (resultChanCapacity elTwelve)
      (List.replicate (triggerCount elTwelve - 1) StatusAccepted) = none := by
  constructor
  · decide
  · rfl

/-- Claim C4 (amended): the result channel capacity is the constant 10, not
a function of the trigger count; only for listeners with at most 10
triggers is the capacity at least N, and then every worker's single send
completes without blocking even if the dispatcher never consumes. -/
theorem chanCapacity_holds_upto_ten (el : EventListener)
    (h : triggerCount el ≤ 10) :
    triggerCount el ≤ resultChanCapacity el ∧
      ∀ codes : List Nat, codes.length = triggerCount el →
        (sendAll (resultChanCapacity el) codes).isSome := by
  refine ⟨h, ?_⟩
  intro codes hlen
  exact sendAll_succeeds_aux codes (resultChanCapacity el) []
    (by simp [hlen, resultChanCapacity]; omega)

/-- Claim C4, witness: the amended statement applied to a two-trigger
listener with both workers reporting 202. -/
theorem chanCapacity_witness :
    triggerCount ⟨[⟨"a"⟩, ⟨"b"⟩]⟩ ≤ resultChanCapacity ⟨[⟨"a"⟩, ⟨"b"⟩]⟩ ∧
      (sendAll (resultChanCapacity ⟨[⟨"a"⟩, ⟨"b"⟩]⟩)
        [StatusAccepted, StatusAccepted]).isSome :=
  ⟨(chanCapacity_holds_upto_ten ⟨[⟨"a"⟩, ⟨"b"⟩]⟩ (by decide)).1,
   (chanCapacity_holds_upto_ten ⟨[⟨"a"⟩, ⟨"b"⟩]⟩ (by decide)).2
     [StatusAccepted, StatusAccepted] (by decide)⟩

/-! ## Worker status mapping (claim C5) -/

theorem aggregateLoop_bounded (cs : List Nat) :
    ∀ acc, acc < 500 → (∀ x ∈ cs, x < 500) → aggregateLoop acc cs < 500 := by
  induction cs with
  | nil =>
    intro acc hacc _
    exact hacc
  | cons c cs ih =>
    intro acc hacc hall
    have hc := hall c (List.mem_cons_self c cs)
    simp only [aggregateLoop]
    split
    · exact hc
    · exact ih _ (by split <;> omega) (fun x hx => hall x (List.mem_cons_of_mem c hx))

/-- Claim C5: a trigger worker maps a `processTrigger` error to exactly one
of 401 (classified unauthorized), 403 (classified forbidden) or 202 (any
other error), maps success to 201, and neither a single worker code nor the
aggregate of worker codes is ever a 5xx status. -/
theorem workerCode_mapping :
    workerCode none = StatusCreated ∧
    workerCode (some .unauthorized) = StatusUnauthorized ∧
    workerCode (some .forbidden) = StatusForbidden ∧
    workerCode (some .otherError) = StatusAccepted ∧
    (∀ r, workerCode r ∈ workerCodes) ∧
    (∀ r, workerCode r < 500) ∧
    ∀ rs : List (Option APIErrorClass),
      aggregateCodes (rs.map workerCode) < 500 := by
  refine ⟨rfl, rfl, rfl, rfl, ?_, ?_, ?_⟩
  · rintro (_ | ⟨_ | _ | _⟩) <;> decide
  · rintro (_ | ⟨_ | _ | _⟩) <;> decide
  · intro rs
    refine aggregateLoop_bounded _ _ (by decide) ?_
    intro x hx
    obtain ⟨r, -, hr⟩ := List.mem_map.mp hx
    subst hr
    rcases r with _ | ⟨_ | _ | _⟩ <;> decide

/-! ## GitLab Process always rejects (claim C2) -/

/-- Claim C2: the GitLab interceptor `Process` decodes its params by calling
`json.Unmarshal` on a nil `*params` pointer, which always fails, so every
request — whatever the params and headers — receives `continue = false` with
an InvalidArgument status.  In particular a request whose params set neither
`secretRef` nor `eventTypes` is not continued, contrary to the claim (and to
the comment in the source asserting the decode error can never happen). -/
theorem gitlabProcess_always_rejects :
    ∀ (secrets : SecretStore) (params : List (String × ParamValue))
      (r : InterceptorRequest),
      gitlabProcess secrets params r =
        (false,
         some ⟨.invalidArgument,
               "invalid json: json: Unmarshal(nil *gitlab.params)"⟩) := by
  intro secrets params r
  rfl

/-! ## Response Content-Type ordering (claim C3) -/

/-- Claim C3: `HandleEvent` calls `Header().Set("Content-Type",
"application/json")` only after `WriteHeader(code)`, and net/http freezes the
header block at `WriteHeader`; evaluated at a concrete accepted event, the
transmitted headers carry no Content-Type (the Set lands only in the
handler-side map), while the body is the expected JSON object. -/
theorem handleEvent_contentType_bug :
    (sentHeaders (handleEventRespond StatusAccepted ⟨"listener", "ns", "event1"⟩
        ResponseWriter.initial)).lookup "Content-Type" = none ∧
    sentStatus (handleEventRespond StatusAccepted ⟨"listener", "ns", "event1"⟩
        ResponseWriter.initial) = some StatusAccepted ∧
    (handleEventRespond StatusAccepted ⟨"listener", "ns", "event1"⟩
        ResponseWriter.initial).sentBody =
      encodeSinkResponse ⟨"listener", "ns", "event1"⟩ ∧
    (handleEventRespond StatusAccepted ⟨"listener", "ns", "event1"⟩
        ResponseWriter.initial).headerMap.lookup "Content-Type" =
      some "application/json" := by
  refine ⟨rfl, rfl, rfl, by decide⟩

/-! ## Interceptor parameter canonicalization (claim C8) -/

/-- Claim C8: `GetInterceptorParams` populates exactly the canonical keys
whose source spec fields are non-empty/non-nil — `eventTypes` and
`secretRef` for the github, gitlab and bitbucket variants, `filter` (only
when the string is non-empty) and `overlays` for the cel variant, and
nothing for the webhook variant. -/
theorem getInterceptorParams_spec :
    (∀ w, GetInterceptorParams (mkWebhookInterceptor w) = []) ∧
    (∀ g : GitHubInterceptor,
      (GetInterceptorParams (mkGitHubInterceptor g)).lookup "eventTypes"
          = g.eventTypes.map ParamValue.eventTypesV ∧
      (GetInterceptorParams (mkGitHubInterceptor g)).lookup "secretRef"
          = g.secretRef.map ParamValue.secretRefV ∧
      ∀ key, key ∈ (GetInterceptorParams (mkGitHubInterceptor g)).map Prod.fst ↔
        (key = "eventTypes" ∧ g.eventTypes.isSome) ∨
        (key = "secretRef" ∧ g.secretRef.isSome)) ∧
    (∀ g : GitLabInterceptor,
      (GetInterceptorParams (mkGitLabInterceptor g)).lookup "eventTypes"
          = g.eventTypes.map ParamValue.eventTypesV ∧
      (GetInterceptorParams (mkGitLabInterceptor g)).lookup "secretRef"
          = g.secretRef.map ParamValue.secretRefV ∧
      ∀ key, key ∈ (GetInterceptorParams (mkGitLabInterceptor g)).map Prod.fst ↔
        (key = "eventTypes" ∧ g.eventTypes.isSome) ∨
        (key = "secretRef" ∧ g.secretRef.isSome)) ∧
    (∀ b : BitbucketInterceptor,
      (GetInterceptorParams (mkBitbucketInterceptor b)).lookup "eventTypes"
          = b.eventTypes.map ParamValue.eventTypesV ∧
      (GetInterceptorParams (mkBitbucketInterceptor b)).lookup "secretRef"
          = b.secretRef.map ParamValue.secretRefV ∧
      ∀ key, key ∈ (GetInterceptorParams (mkBitbucketInterceptor b)).map Prod.fst ↔
        (key = "eventTypes" ∧ b.eventTypes.isSome) ∨
        (key = "secretRef" ∧ b.secretRef.isSome)) ∧
    (∀ c : CELInterceptor,
      (GetInterceptorParams (mkCELInterceptor c)).lookup "filter"
          = (if c.filter = "" then none else some (ParamValue.filterV c.filter)) ∧
      (GetInterceptorParams (mkCELInterceptor c)).lookup "overlays"
          = c.overlays.map ParamValue.overlaysV ∧
      ∀ key, key ∈ (GetInterceptorParams (mkCELInterceptor c)).map Prod.fst ↔
        (key = "filter" ∧ c.filter ≠ "") ∨
        (key = "overlays" ∧ c.overlays.isSome)) := by
  refine ⟨fun w => rfl, ?_, ?_, ?_, ?_⟩
  · rintro ⟨sr, et⟩
    rcases sr with - | sr <;> rcases et with - | et <;>
      refine ⟨by rfl, by rfl, fun key => ?_⟩ <;>
      simp [GetInterceptorParams, mkGitHubInterceptor]
  · rintro ⟨sr, et⟩
    rcases sr with - | sr <;> rcases et with - | et <;>
      refine ⟨by rfl, by rfl, fun key => ?_⟩ <;>
      simp [GetInterceptorParams, mkGitLabInterceptor]
  · rintro ⟨sr, et⟩
    rcases sr with - | sr <;> rcases et with - | et <;>
      refine ⟨by rfl, by rfl, fun key => ?_⟩ <;>
      simp [GetInterceptorParams, mkBitbucketInterceptor]
  · rintro ⟨flt, ovs⟩
    rcases ovs with - | ovs <;> by_cases hf : flt = ""
    · subst hf
      refine ⟨by rfl, by rfl, fun key => ?_⟩
      simp [GetInterceptorParams, mkCELInterceptor]
    · refine ⟨?_, ?_, fun key => ?_⟩
      · rw [if_neg hf]
        simp [GetInterceptorParams, mkCELInterceptor, hf, List.lookup]
      · simp [GetInterceptorParams, mkCELInterceptor, hf, List.lookup]
      · simp [GetInterceptorParams, mkCELInterceptor, hf]
    · subst hf
      refine ⟨by rfl, by rfl, fun key => ?_⟩
      simp [GetInterceptorParams, mkCELInterceptor]
    · refine ⟨?_, ?_, fun key => ?_⟩
      · rw [if_neg hf]
        simp [GetInterceptorParams, mkCELInterceptor, hf, List.lookup]
      · simp [GetInterceptorParams, mkCELInterceptor, hf, List.lookup]
      · simp [GetInterceptorParams, mkCELInterceptor, hf]

/-! ## ParseTriggerID (claim C10) -/

theorem splitRunsAux_no_sep (sep : Char) :
    ∀ xs acc : List Char, sep ∉ xs →
      splitRunsAux sep xs acc = [acc.reverse ++ xs] := by
  intro xs
  induction xs with
  | nil =>
    intro acc _
    simp [splitRunsAux]
  | cons c cs ih =>
    intro acc hmem
    have hc : c ≠ sep := fun h => hmem (h ▸ List.mem_cons_self c cs)
    rw [splitRunsAux, if_neg hc, ih (c :: acc) (fun h => hmem (List.mem_cons_of_mem c h))]
    simp

theorem splitRunsAux_sep (sep : Char) :
    ∀ xs rest acc : List Char, sep ∉ xs →
      splitRunsAux sep (xs ++ sep :: rest) acc =
        (acc.reverse ++ xs) :: splitRunsAux sep rest [] := by
  intro xs
  induction xs with
  | nil =>
    intro rest acc _
    rw [List.nil_append, splitRunsAux, if_pos rfl]
    simp
  | cons c cs ih =>
    intro rest acc hmem
    have hc : c ≠ sep := fun h => hmem (h ▸ List.mem_cons_self c cs)
    rw [List.cons_append, splitRunsAux, if_neg hc,
      ih rest (c :: acc) (fun h => hmem (List.mem_cons_of_mem c h))]
    simp

theorem String_mk_data : ∀ s : String, (⟨s.data⟩ : String) = s :=
  fun ⟨_⟩ => rfl

/-- Claim C10: `ParseTriggerID` is a left inverse of the TriggerID
construction: for any namespace and trigger name free of slashes it recovers
both, and any string that does not split into exactly four slash-separated
segments yields two empty strings. -/
theorem parseTriggerID_spec :
    (∀ ns n : String, '/' ∉ ns.data → '/' ∉ n.data →
      ParseTriggerID (mkTriggerID ns n) = (ns, n)) ∧
    (∀ s : String, (splitOnSep '/' s).length ≠ 4 →
      ParseTriggerID s = ("", "")) := by
  constructor
  · intro ns n hns hn
    have hdata : (mkTriggerID ns n).data
        = "namespaces".data ++
            '/' :: (ns.data ++ '/' :: ("triggers".data ++ '/' :: n.data)) := by
      show ("namespaces/" ++ ns ++ "/triggers/" ++ n).data = _
      rw [String.data_append, String.data_append, String.data_append]
      have h1 : "namespaces/".data = "namespaces".data ++ ['/'] := rfl
      have h2 : "/triggers/".data = '/' :: ("triggers".data ++ ['/']) := rfl
      rw [h1, h2]
      simp
    rw [ParseTriggerID, splitOnSep, hdata,
      splitRunsAux_sep '/' "namespaces".data _ [] (by decide),
      splitRunsAux_sep '/' ns.data _ [] hns,
      splitRunsAux_sep '/' "triggers".data _ [] (by decide),
      splitRunsAux_no_sep '/' n.data [] hn]
    simp [String_mk_data]
  · intro s hlen
    rw [ParseTriggerID]
    rcases hl : splitOnSep '/' s with - | ⟨a, - | ⟨b, - | ⟨c, - | ⟨d, - | ⟨e, t⟩⟩⟩⟩⟩ <;>
      rw [hl] at hlen <;> simp_all

/-- Claim C10, witness: the identity at a concrete namespace and name and
the empty result at a concrete malformed id. -/
theorem parseTriggerID_witness :
    ParseTriggerID (mkTriggerID "default" "my-trig") = ("default", "my-trig") ∧
    ParseTriggerID "not-a-trigger-id" = ("", "") :=
  ⟨parseTriggerID_spec.1 "default" "my-trig" (by decide) (by decide),
   parseTriggerID_spec.2 "not-a-trigger-id" (by decide)⟩

/-! ## CEL filter (claim C7) -/

theorem runOverlays_error_invalid
    (evalFn : String → Except String CelVal) :
    ∀ (ovs : List CELOverlay) (ext : Option Jval) (st : GrpcStatus),
      runOverlays evalFn ovs ext = .error st → st.code = .invalidArgument := by
  intro ovs
  induction ovs with
  | nil =>
    intro ext st h
    simp [runOverlays] at h
  | cons o os ih =>
    intro ext st h
    rw [runOverlays] at h
    rcases hev : evalFn o.expression with e | v
    · rw [hev] at h
      cases h
      rfl
    · rw [hev] at h
      exact ih _ st h

theorem celProcessOverlays_status
    (evalFn : String → Except String CelVal) (p : CELInterceptor) :
    ∀ st, (celProcessOverlays evalFn p).status = some st →
      st.code = .invalidArgument ∨ st.code = .internalError := by
  intro st h
  rw [celProcessOverlays] at h
  rcases hrun : runOverlays evalFn (p.overlays.getD []) none with st2 | ext
  · rw [hrun] at h
    cases h
    exact Or.inl (runOverlays_error_invalid evalFn _ _ _ hrun)
  · rw [hrun] at h
    rcases ext with - | ext
    · simp at h
    · rcases ext with - | b | n | s | xs | fs <;> simp_all <;> subst h <;> exact Or.inr rfl

/-- Claim C7: with a non-empty filter, `Process` rejects with a
FailedPrecondition status carrying the expression text whenever the filter
evaluates to any value other than the CEL boolean true, and when the filter
evaluates to true the response never carries a FailedPrecondition status
(the filter causes no rejection). -/
theorem celFilter_spec :
    (∀ (evalFn : String → Except String CelVal) (p : CELInterceptor)
       (v : CelVal),
      p.filter ≠ "" → evalFn p.filter = .ok v → isCelTrue v = false →
      celProcess (.ok ()) evalFn p =
        ⟨false, none,
         some ⟨.failedPrecondition,
               "expression " ++ p.filter ++ " did not return true"⟩⟩) ∧
    (∀ (evalFn : String → Except String CelVal) (p : CELInterceptor),
      p.filter ≠ "" → evalFn p.filter = .ok (.bool true) →
      ∀ st, (celProcess (.ok ()) evalFn p).status = some st →
        st.code ≠ .failedPrecondition) := by
  constructor
  · intro evalFn p v hne hev hnt
    rw [celProcess, if_pos hne, hev]
    simp [hnt]
  · intro evalFn p hne hev st hst
    rw [celProcess, if_pos hne, hev] at hst
    simp only [isCelTrue, if_pos] at hst
    rcases celProcessOverlays_status evalFn p st hst with h | h <;>
      (rw [h]; intro hc; cases hc)

/-- Claim C7, witness: a filter evaluating to boolean false is rejected with
the FailedPrecondition message naming the expression. -/
theorem celFilter_witness :
    celProcess (.ok ()) (fun _ => .ok (.bool false)) ⟨"flt", none⟩ =
      ⟨false, none,
       some ⟨.failedPrecondition, "expression flt did not return true"⟩⟩ :=
  celFilter_spec.1 (fun _ => .ok (.bool false)) ⟨"flt", none⟩ (.bool false)
    (by decide) rfl rfl

/-! ## CEL overlays (claim C6) -/

theorem runOverlays_all_ok (evalFn : String → Except String CelVal) :
    ∀ (ovs : List CELOverlay),
      (∀ o ∈ ovs, ∃ v, evalFn o.expression = .ok v) →
      ∀ ext, runOverlays evalFn ovs ext = .ok (specOverlayFold evalFn ovs ext) := by
  intro ovs
  induction ovs with
  | nil =>
    intro _ ext
    rfl
  | cons o os ih =>
    intro hall ext
    obtain ⟨v, hv⟩ := hall o (List.mem_cons_self o os)
    have hstep : specOverlayFold evalFn (o :: os) ext =
        specOverlayFold evalFn os (some (applyOverlay ext o.key (celToJson v))) := by
      rw [specOverlayFold, List.foldl_cons, hv]
      rfl
    rw [runOverlays, hv, hstep]
    exact ih (fun o2 h2 => hall o2 (List.mem_cons_of_mem o h2)) _

theorem splitRunsAux_ne_nil (sep : Char) :
    ∀ (cs acc : List Char), splitRunsAux sep cs acc ≠ [] := by
  intro cs
  induction cs with
  | nil =>
    intro acc
    simp [splitRunsAux]
  | cons c cs ih =>
    intro acc
    rw [splitRunsAux]
    split
    · simp
    · exact ih (c :: acc)

theorem sjsonPath_ne_nil (key : String) : sjsonPath key ≠ [] := by
  rw [sjsonPath]
  intro h
  exact splitRunsAux_ne_nil '.' key.data [] (List.map_eq_nil.mp h)

theorem specOverlayFold_obj (evalFn : String → Except String CelVal) :
    ∀ (ovs : List CELOverlay), ovs ≠ [] →
      (∀ o ∈ ovs, ∃ v, evalFn o.expression = .ok v) →
      ∀ ext, ∃ fs, specOverlayFold evalFn ovs ext = some (.obj fs) := by
  intro ovs
  induction ovs with
  | nil =>
    intro h
    exact absurd rfl h
  | cons o os ih =>
    intro _hne hall ext
    obtain ⟨v, hv⟩ := hall o (List.mem_cons_self o os)
    rcases os with - | ⟨o2, os2⟩
    · rcases hp : sjsonPath o.key with - | ⟨k, rest⟩
      · exact absurd hp (sjsonPath_ne_nil o.key)
      · have hfold : specOverlayFold evalFn [o] ext =
            some (applyOverlay ext o.key (celToJson v)) := by
          rw [specOverlayFold, List.foldl_cons, hv, List.foldl_nil]
        have hobj : ∃ fs, applyOverlay ext o.key (celToJson v) = Jval.obj fs := by
          rw [applyOverlay, hp, setPath]
          exact ⟨_, rfl⟩
        obtain ⟨fs, h2⟩ := hobj
        exact ⟨fs, by rw [hfold, h2]⟩
    · have hne2 : o2 :: os2 ≠ [] := by simp
      obtain ⟨fs, hfs⟩ := ih hne2 (fun x hx => hall x (List.mem_cons_of_mem o hx))
        (some (applyOverlay ext o.key (celToJson v)))
      refine ⟨fs, ?_⟩
      rw [specOverlayFold, List.foldl_cons, hv, ← hfs, specOverlayFold]

/-- Claim C6: with an empty filter and overlays, `Process` evaluates each
overlay expression in declaration order, serializes the result to its
canonical JSON form, sets it at the overlay's key inside an extensions JSON
object with the dotted-path setter, and after all overlays parses the
extensions JSON into the response's extensions map with continue true; in
particular an overlay `pr.url = e` produces nested extensions
`pr -> url -> value`. -/
theorem celOverlays_spec :
    (∀ (evalFn : String → Except String CelVal) (ovs : List CELOverlay),
      (∀ o ∈ ovs, ∃ v, evalFn o.expression = .ok v) → ovs ≠ [] →
      ∃ fs, specOverlayFold evalFn ovs none = some (.obj fs) ∧
        celProcess (.ok ()) evalFn ⟨"", some ovs⟩ = ⟨true, some fs, none⟩) ∧
    (∀ (evalFn : String → Except String CelVal) (e : String) (v : CelVal),
      evalFn e = .ok v →
      celProcess (.ok ()) evalFn ⟨"", some [⟨"pr.url", e⟩]⟩ =
        ⟨true, some [("pr", Jval.obj [("url", celToJson v)])], none⟩) := by
  have hrun : ∀ (evalFn : String → Except String CelVal)
      (ovs : List CELOverlay),
      (∀ o ∈ ovs, ∃ v, evalFn o.expression = .ok v) → ovs ≠ [] →
      ∃ fs, specOverlayFold evalFn ovs none = some (.obj fs) ∧
        celProcess (.ok ()) evalFn ⟨"", some ovs⟩ = ⟨true, some fs, none⟩ := by
    intro evalFn ovs hall hne
    obtain ⟨fs, hfs⟩ := specOverlayFold_obj evalFn ovs hne hall none
    refine ⟨fs, hfs, ?_⟩
    rw [celProcess]
    rw [if_neg (by simp)]
    rw [celProcessOverlays]
    have hovs : (some ovs).getD ([] : List CELOverlay) = ovs := rfl
    rw [hovs, runOverlays_all_ok evalFn ovs hall none, hfs]
  refine ⟨hrun, ?_⟩
  intro evalFn e v hev
  have hall : ∀ o ∈ [(⟨"pr.url", e⟩ : CELOverlay)],
      ∃ w, evalFn o.expression = .ok w := by
    intro o ho
    rw [List.mem_singleton] at ho
    subst ho
    exact ⟨v, hev⟩
  obtain ⟨fs, hfs, hresp⟩ := hrun evalFn [⟨"pr.url", e⟩] hall (by simp)
  have hfold : specOverlayFold evalFn [⟨"pr.url", e⟩] none =
      some (.obj [("pr", Jval.obj [("url", celToJson v)])]) := by
    rw [specOverlayFold, List.foldl_cons, hev, List.foldl_nil]
    rfl
  rw [hfold] at hfs
  cases hfs
  exact hresp

/-- Claim C6, witness: a single overlay `pr.url` whose expression evaluates
to the string `testing!` yields continue with extensions
`pr.url = "testing!"`. -/
theorem celOverlays_witness :
    celProcess (.ok ()) (fun _ => .ok (.str "testing!"))
        ⟨"", some [⟨"pr.url", "body.value + bang"⟩]⟩ =
      ⟨true, some [("pr", Jval.obj [("url", Jval.str "testing!")])], none⟩ :=
  celOverlays_spec.2 (fun _ => .ok (.str "testing!")) "body.value + bang"
    (.str "testing!") rfl

/-! ## Substitution round-trip (claim C9) -/

theorem pStrAux_cons (acc : List Char) (c : Char) (r : List Char) :
    pStrAux acc (c :: r) =
      if c = quoteChar then some (⟨acc.reverse⟩, r)
      else if c = '\\' then
        (match r with
         | [] => none
         | e :: r2 =>
           match unescChar e with
           | some ch => pStrAux (ch :: acc) r2
           | none => none)
      else pStrAux (c :: acc) r := by
  rw [pStrAux.eq_def]

theorem pVal_succ_cons (f : Nat) (c : Char) (cs : List Char) :
    pVal (f + 1) (c :: cs) =
      (if c = quoteChar then (pStrAux [] cs).map (fun p => (.str p.1, p.2))
       else if c = '[' then pArr f cs
       else if c = openBraceChar then pObj f cs
       else if c = 'n' then pLitNull cs
       else if c = 't' then pLitTrue cs
       else if c = 'f' then pLitFalse cs
       else pNum (c :: cs)) := by
  rw [pVal.eq_def]

theorem pArr_cons (f : Nat) (d : Char) (r : List Char) :
    pArr f (d :: r) =
      (if d = ']' then some (.arr [], r)
       else (pItems f (d :: r)).map (fun p => (.arr p.1, p.2))) := by
  rw [pArr.eq_def]

theorem pObj_cons (f : Nat) (d : Char) (r : List Char) :
    pObj f (d :: r) =
      (if d = closeBraceChar then some (.obj [], r)
       else (pFields f (d :: r)).map (fun p => (.obj p.1, p.2))) := by
  rw [pObj.eq_def]

theorem pItems_succ (f : Nat) (cs : List Char) :
    pItems (f + 1) cs = pItemsCont f (pVal f cs) := by
  rw [pItems.eq_def]

theorem pItemsCont_some (f : Nat) (v : Jval) (d : Char) (r : List Char) :
    pItemsCont f (some (v, d :: r)) =
      (if d = ',' then (pItems f r).map (fun p => (v :: p.1, p.2))
       else if d = ']' then some ([v], r)
       else none) := by
  rw [pItemsCont.eq_def]

theorem pFields_succ_cons (f : Nat) (c : Char) (cs2 : List Char) :
    pFields (f + 1) (c :: cs2) =
      (if c = quoteChar then pFieldsKey f (pStrAux [] cs2) else none) := by
  rw [pFields.eq_def]

theorem pFieldsKey_some (f : Nat) (k : String) (d : Char) (r : List Char) :
    pFieldsKey f (some (k, d :: r)) =
      (if d = ':' then pFieldsVal f k (pVal f r) else none) := by
  rw [pFieldsKey.eq_def]

theorem pFieldsVal_some (f : Nat) (k : String) (v : Jval) (d2 : Char)
    (r2 : List Char) :
    pFieldsVal f k (some (v, d2 :: r2)) =
      (if d2 = ',' then (pFields f r2).map (fun p => ((k, v) :: p.1, p.2))
       else if d2 = closeBraceChar then some ([(k, v)], r2)
       else none) := by
  rw [pFieldsVal.eq_def]

theorem escQuotesL_head_ne (cs : List Char) :
    ∀ c2 t, escQuotesL cs = c2 :: t → c2 ≠ quoteChar := by
  cases cs with
  | nil =>
    intro c2 t h
    cases h
  | cons c r =>
    intro c2 t h
    rw [escQuotesL] at h
    by_cases hc : c = quoteChar
    · rw [if_pos hc] at h
      cases h
      decide
    · rw [if_neg hc] at h
      cases h
      exact hc

theorem escQuotesL_eq_nil (cs : List Char) : escQuotesL cs = [] → cs = [] := by
  cases cs with
  | nil =>
    intro _
    rfl
  | cons c r =>
    intro h
    rw [escQuotesL] at h
    by_cases hc : c = quoteChar
    · rw [if_pos hc] at h
      cases h
    · rw [if_neg hc] at h
      cases h

theorem unescQuotesL_escQuotesL : ∀ cs, unescQuotesL (escQuotesL cs) = cs := by
  intro cs
  induction cs with
  | nil => rfl
  | cons c r ih =>
    rw [escQuotesL]
    by_cases hc : c = quoteChar
    · rw [if_pos hc]
      subst hc
      show unescQuotesL ('\\' :: quoteChar :: escQuotesL r) = quoteChar :: r
      rw [unescQuotesL, if_pos ⟨rfl, rfl⟩, ih]
    · rw [if_neg hc]
      show unescQuotesL (c :: escQuotesL r) = c :: r
      rcases hr : escQuotesL r with - | ⟨c2, t⟩
      · rw [escQuotesL_eq_nil r hr]
        rfl
      · rw [unescQuotesL, if_neg ?_, ← hr, ih]
        rintro ⟨-, h2⟩
        exact escQuotesL_head_ne r c2 t hr h2

theorem unescapeQuotes_escapeQuotes (s : String) :
    unescapeQuotes (escapeQuotes s) = s := by
  show (⟨unescQuotesL (escQuotesL s.data)⟩ : String) = s
  rw [unescQuotesL_escQuotesL, String_mk_data]

theorem pStrAux_esc (c : Char) (acc rest : List Char) :
    pStrAux acc (escJsonChar c ++ rest) = pStrAux (c :: acc) rest := by
  by_cases hq : c = quoteChar
  · subst hq
    rw [escJsonChar, if_pos rfl]
    rw [show ['\\', quoteChar] ++ rest = '\\' :: quoteChar :: rest from rfl]
    rw [pStrAux_cons, if_neg (by decide), if_pos rfl]
    rfl
  · by_cases hb : c = '\\'
    · subst hb
      rw [escJsonChar, if_neg (by decide), if_pos rfl]
      rw [show ['\\', '\\'] ++ rest = '\\' :: '\\' :: rest from rfl]
      rw [pStrAux_cons, if_neg (by decide), if_pos rfl]
      rfl
    · rw [escJsonChar, if_neg hq, if_neg hb]
      rw [show [c] ++ rest = c :: rest from rfl]
      rw [pStrAux_cons, if_neg hq, if_neg hb]

theorem pStrAux_ser (cs : List Char) :
    ∀ acc rest, pStrAux acc (serStrBody cs ++ quoteChar :: rest) =
      some (⟨acc.reverse ++ cs⟩, rest) := by
  induction cs with
  | nil =>
    intro acc rest
    rw [serStrBody, List.nil_append, pStrAux_cons, if_pos rfl]
    simp
  | cons c r ih =>
    intro acc rest
    rw [serStrBody, List.append_assoc, pStrAux_esc, ih]
    simp

theorem pVal_str (f : Nat) (s : String) (rest : List Char) :
    pVal (f + 1) (serStr s ++ rest) = some (.str s, rest) := by
  have h : serStr s ++ rest =
      quoteChar :: (serStrBody s.data ++ quoteChar :: rest) := by
    rw [serStr]
    simp
  rw [h, pVal_succ_cons, if_pos rfl, pStrAux_ser s.data [] rest]
  simp [String_mk_data]

theorem pStrAux_ser_nil (cs rest : List Char) :
    pStrAux [] (serStrBody cs ++ quoteChar :: rest) = some (⟨cs⟩, rest) := by
  rw [pStrAux_ser]
  simp

theorem serSeq_strs_head (s : String) (ss : List String) :
    ∃ t, serSeq ((s :: ss).map Jval.str) = quoteChar :: t := by
  cases ss with
  | nil => exact ⟨_, rfl⟩
  | cons s2 ss2 => exact ⟨_, rfl⟩

theorem pItems_strs :
    ∀ (ss : List String) (s : String) (f : Nat) (rest : List Char),
      ss.length + 2 ≤ f →
      pItems f (serSeq ((s :: ss).map Jval.str) ++ ']' :: rest) =
        some ((s :: ss).map Jval.str, rest) := by
  intro ss
  induction ss with
  | nil =>
    intro s f rest hf
    obtain ⟨f1, rfl⟩ : ∃ f1, f = f1 + 1 := ⟨f - 1, by omega⟩
    obtain ⟨f2, rfl⟩ : ∃ f2, f1 = f2 + 1 := ⟨f1 - 1, by omega⟩
    rw [List.map_cons, List.map_nil,
      show serSeq [Jval.str s] = serStr s from rfl,
      pItems_succ, pVal_str f2 s (']' :: rest), pItemsCont_some,
      if_neg (by decide), if_pos rfl]
  | cons s2 ss2 ih =>
    intro s f rest hf
    obtain ⟨f1, rfl⟩ : ∃ f1, f = f1 + 1 :=
      ⟨f - 1, by simp only [List.length_cons] at hf; omega⟩
    obtain ⟨f2, hf2⟩ : ∃ f2, f1 = f2 + 1 :=
      ⟨f1 - 1, by simp only [List.length_cons] at hf; omega⟩
    have hser : serSeq ((s :: s2 :: ss2).map Jval.str) ++ ']' :: rest =
        serStr s ++ ',' :: (serSeq ((s2 :: ss2).map Jval.str) ++ ']' :: rest) := by
      rw [List.map_cons, List.map_cons,
        show serSeq (Jval.str s :: Jval.str s2 :: ss2.map Jval.str) =
          serStr s ++ ',' :: serSeq (Jval.str s2 :: ss2.map Jval.str) from rfl]
      simp
    rw [hser, pItems_succ]
    subst hf2
    rw [pVal_str f2 s _, pItemsCont_some, if_pos rfl,
      ih s2 (f2 + 1) rest (by simp only [List.length_cons] at hf ⊢; omega)]
    simp

theorem pVal_arrStrs :
    ∀ (vs : List String) (f : Nat) (rest : List Char), vs.length + 2 ≤ f →
      pVal f (serVal (.arr (vs.map Jval.str)) ++ rest) =
        some (.arr (vs.map Jval.str), rest) := by
  intro vs f rest hf
  obtain ⟨f1, rfl⟩ : ∃ f1, f = f1 + 1 := ⟨f - 1, by omega⟩
  have harr : serVal (.arr (vs.map Jval.str)) ++ rest =
      '[' :: (serSeq (vs.map Jval.str) ++ ']' :: rest) := by
    rw [show serVal (.arr (vs.map Jval.str)) =
      '[' :: (serSeq (vs.map Jval.str) ++ [']']) from rfl]
    simp
  rw [harr, pVal_succ_cons, if_neg (by decide), if_pos rfl]
  cases vs with
  | nil =>
    rw [List.map_nil, show serSeq [] = ([] : List Char) from rfl, List.nil_append,
      pArr_cons, if_pos rfl]
  | cons s ss =>
    obtain ⟨t, ht⟩ := serSeq_strs_head s ss
    rw [ht, List.cons_append, pArr_cons, if_neg (by decide), ← List.cons_append,
      ← ht, pItems_strs ss s f1 rest (by simp only [List.length_cons] at hf; omega)]
    rfl

theorem serFieldSeq_head (k : String) (vs : List String)
    (es : List (String × List String)) :
    ∃ t, serFieldSeq (((k, vs) :: es).map toHeaderField) = quoteChar :: t := by
  cases es with
  | nil => exact ⟨_, rfl⟩
  | cons e2 es2 => exact ⟨_, rfl⟩

theorem pFields_entries :
    ∀ (es : List (String × List String)) (k : String) (vs : List String)
      (f : Nat) (rest : List Char),
      entriesFuel ((k, vs) :: es) ≤ f →
      pFields f
          (serFieldSeq (((k, vs) :: es).map toHeaderField) ++
            closeBraceChar :: rest) =
        some (((k, vs) :: es).map toHeaderField, rest) := by
  intro es
  induction es with
  | nil =>
    intro k vs f rest hf
    rw [entriesFuel, entriesFuel] at hf
    obtain ⟨f1, rfl⟩ : ∃ f1, f = f1 + 1 := ⟨f - 1, by omega⟩
    have hser : serFieldSeq ([(k, vs)].map toHeaderField) ++ closeBraceChar :: rest =
        quoteChar :: (serStrBody k.data ++ quoteChar ::
          (':' :: (serVal (.arr (vs.map Jval.str)) ++ closeBraceChar :: rest))) := by
      rw [List.map_cons, List.map_nil,
        show serFieldSeq [toHeaderField (k, vs)] =
          serStr k ++ ':' :: serVal (.arr (vs.map Jval.str)) from rfl,
        serStr]
      simp
    rw [hser, pFields_succ_cons, if_pos rfl, pStrAux_ser_nil, pFieldsKey_some,
      if_pos rfl, String_mk_data,
      pVal_arrStrs vs f1 _ (by omega), pFieldsVal_some,
      if_neg (by decide), if_pos rfl]
    rfl
  | cons e2 es2 ih =>
    intro k vs f rest hf
    rw [entriesFuel] at hf
    obtain ⟨f1, rfl⟩ : ∃ f1, f = f1 + 1 := ⟨f - 1, by omega⟩
    obtain ⟨k2, vs2⟩ := e2
    have hser : serFieldSeq (((k, vs) :: (k2, vs2) :: es2).map toHeaderField) ++
          closeBraceChar :: rest =
        quoteChar :: (serStrBody k.data ++ quoteChar ::
          (':' :: (serVal (.arr (vs.map Jval.str)) ++ ',' ::
            (serFieldSeq (((k2, vs2) :: es2).map toHeaderField) ++
              closeBraceChar :: rest)))) := by
      rw [List.map_cons, List.map_cons,
        show serFieldSeq (toHeaderField (k, vs) :: toHeaderField (k2, vs2) ::
            es2.map toHeaderField) =
          serStr k ++ ':' :: serVal (.arr (vs.map Jval.str)) ++ ',' ::
            serFieldSeq (toHeaderField (k2, vs2) :: es2.map toHeaderField) from rfl,
        serStr]
      simp
    rw [hser, pFields_succ_cons, if_pos rfl, pStrAux_ser_nil, pFieldsKey_some,
      if_pos rfl, String_mk_data,
      pVal_arrStrs vs f1 _ (by rw [entriesFuel] at hf; omega), pFieldsVal_some,
      if_pos rfl,
      ih k2 vs2 f1 rest (by rw [entriesFuel] at hf ⊢; omega)]
    simp [toHeaderField]

theorem pVal_headerObj :
    ∀ (es : List (String × List String)) (f : Nat) (rest : List Char),
      entriesFuel es + 1 ≤ f →
      pVal f (serVal (.obj (es.map toHeaderField)) ++ rest) =
        some (.obj (es.map toHeaderField), rest) := by
  intro es f rest hf
  obtain ⟨f1, rfl⟩ : ∃ f1, f = f1 + 1 := ⟨f - 1, by omega⟩
  have hob : serVal (.obj (es.map toHeaderField)) ++ rest =
      openBraceChar ::
        (serFieldSeq (es.map toHeaderField) ++ closeBraceChar :: rest) := by
    rw [show serVal (.obj (es.map toHeaderField)) =
      openBraceChar ::
        (serFieldSeq (es.map toHeaderField) ++ [closeBraceChar]) from rfl]
    simp
  rw [hob, pVal_succ_cons, if_neg (by decide), if_neg (by decide), if_pos rfl]
  cases es with
  | nil =>
    rw [List.map_nil, show serFieldSeq [] = ([] : List Char) from rfl,
      List.nil_append, pObj_cons, if_pos rfl]
  | cons e es2 =>
    obtain ⟨k, vs⟩ := e
    obtain ⟨t, ht⟩ := serFieldSeq_head k vs es2
    rw [ht, List.cons_append, pObj_cons, if_neg (by decide), ← List.cons_append,
      ← ht, pFields_entries es2 k vs f1 rest (by rw [entriesFuel] at hf ⊢; omega)]
    rfl

theorem serStr_len (s : String) : 2 ≤ (serStr s).length := by
  rw [serStr]
  simp

theorem serSeq_strs_len :
    ∀ vs : List String, vs.length ≤ (serSeq (vs.map Jval.str)).length := by
  intro vs
  induction vs with
  | nil => simp
  | cons s ss ih =>
    cases ss with
    | nil =>
      rw [List.map_cons, List.map_nil,
        show serSeq [Jval.str s] = serStr s from rfl]
      have := serStr_len s
      simp only [List.length_cons, List.length_nil]
      omega
    | cons s2 ss2 =>
      rw [List.map_cons, List.map_cons,
        show serSeq (Jval.str s :: Jval.str s2 :: ss2.map Jval.str) =
          serStr s ++ ',' :: serSeq (Jval.str s2 :: ss2.map Jval.str) from rfl]
      rw [List.map_cons] at ih
      have h1 := serStr_len s
      simp only [List.length_cons, List.length_append] at ih ⊢
      omega

theorem serVal_arr_len (xs : List Jval) :
    (serVal (.arr xs)).length = (serSeq xs).length + 2 := by
  rw [show serVal (.arr xs) = '[' :: (serSeq xs ++ [']']) from rfl]
  simp

theorem entriesFuel_le :
    ∀ es : List (String × List String),
      entriesFuel es ≤ (serFieldSeq (es.map toHeaderField)).length + 2 := by
  intro es
  induction es with
  | nil =>
    rw [entriesFuel]
    omega
  | cons e es2 ih =>
    obtain ⟨k, vs⟩ := e
    rw [entriesFuel]
    cases es2 with
    | nil =>
      rw [List.map_cons, List.map_nil,
        show serFieldSeq [toHeaderField (k, vs)] =
          serStr k ++ ':' :: serVal (.arr (vs.map Jval.str)) from rfl,
        entriesFuel]
      have h1 := serStr_len k
      have h2 := serSeq_strs_len vs
      have h3 := serVal_arr_len (vs.map Jval.str)
      simp only [List.length_append, List.length_cons]
      omega
    | cons e2 es3 =>
      obtain ⟨k2, vs2⟩ := e2
      rw [List.map_cons, List.map_cons,
        show serFieldSeq (toHeaderField (k, vs) :: toHeaderField (k2, vs2) ::
            es3.map toHeaderField) =
          serStr k ++ ':' :: serVal (.arr (vs.map Jval.str)) ++ ',' ::
            serFieldSeq (toHeaderField (k2, vs2) :: es3.map toHeaderField) from rfl]
      rw [List.map_cons] at ih
      have h1 := serStr_len k
      have h2 := serSeq_strs_len vs
      have h3 := serVal_arr_len (vs.map Jval.str)
      simp only [List.length_append, List.length_cons] at ih ⊢
      omega

theorem parseJson_header (h : List (String × List String)) :
    parseJson ⟨serVal (headerJson h)⟩ = some (headerJson h) := by
  have hpv := pVal_headerObj (headerEntries h)
    ((serVal (headerJson h)).length + 1) []
    (by
      have h1 := entriesFuel_le (headerEntries h)
      have h2 : (serVal (headerJson h)).length =
          (serFieldSeq ((headerEntries h).map toHeaderField)).length + 2 := by
        rw [show serVal (headerJson h) =
          openBraceChar ::
            (serFieldSeq ((headerEntries h).map toHeaderField) ++
              [closeBraceChar]) from rfl]
        simp
      omega)
  rw [List.append_nil] at hpv
  show (match pVal ((serVal (headerJson h)).length + 1) (serVal (headerJson h)) with
    | some (v, []) => some v
    | _ => none) = some (headerJson h)
  rw [show headerJson h = .obj ((headerEntries h).map toHeaderField) from rfl] at hpv ⊢
  rw [hpv]

theorem headerEntries_sorted (h : List (String × List String)) :
    List.Sorted (fun a b : String => a ≤ b) ((headerEntries h).map Prod.fst) := by
  haveI : IsTotal (String × List String)
      (fun a b : String × List String => a.1 ≤ b.1) :=
    ⟨fun a b => le_total a.1 b.1⟩
  haveI : IsTrans (String × List String)
      (fun a b : String × List String => a.1 ≤ b.1) :=
    ⟨fun _ _ _ hab hbc => le_trans hab hbc⟩
  have hs : List.Pairwise (fun a b : String × List String => a.1 ≤ b.1)
      (headerEntries h) := by
    rw [headerEntries]
    exact List.sorted_insertionSort _ h
  exact List.pairwise_map.mpr hs

/-- Claim C9 (spec-modelled: the template implementation is absent from src,
only its tests are): the `$(body)` and `$(header)` substitutions round-trip.
The substituted text is the JSON text with every double quote escaped as
backslash-quote; unescaping returns exactly the original text, and
re-parsing it as JSON yields the original body structure, respectively the
canonical header object — whose keys are sorted ascending. -/
theorem substitution_roundtrip :
    (∀ body : String,
      unescapeQuotes (bodySubstitution body) = body ∧
      parseJson (unescapeQuotes (bodySubstitution body)) = parseJson body) ∧
    (∀ h : List (String × List String), headerWF h →
      unescapeQuotes (headerSubstitution h) = ⟨serVal (headerJson h)⟩ ∧
      parseJson (unescapeQuotes (headerSubstitution h)) = some (headerJson h) ∧
      List.Sorted (fun a b : String => a ≤ b)
        ((headerEntries h).map Prod.fst)) := by
  constructor
  · intro body
    refine ⟨unescapeQuotes_escapeQuotes body, ?_⟩
    rw [bodySubstitution, unescapeQuotes_escapeQuotes body]
  · intro h _hwf
    refine ⟨?_, ?_, headerEntries_sorted h⟩
    · rw [headerSubstitution]
      exact unescapeQuotes_escapeQuotes _
    · rw [headerSubstitution, unescapeQuotes_escapeQuotes]
      exact parseJson_header h

/-- Claim C9, witness: the round-trip at the header map of the repository's
own Test_getHeaderValue vector. -/
theorem substitution_roundtrip_witness :
    headerWF [("one", ["one"]), ("three", ["one", "two", "three"]),
      ("two", ["one", "two"])] ∧
    parseJson (unescapeQuotes (headerSubstitution
        [("one", ["one"]), ("three", ["one", "two", "three"]),
          ("two", ["one", "two"])])) =
      some (headerJson [("one", ["one"]), ("three", ["one", "two", "three"]),
        ("two", ["one", "two"])]) :=
  ⟨by decide, (substitution_roundtrip.2 _ (by decide)).2.1⟩

end Triggers
